import Mathlib

/-!
Verification of the order-matching core of `idzharbae/crypto-exchange`
(`src/internal/entity/orderbook.go`), as a shallow embedding.

Modelling conventions, chosen once and used throughout:

* Go `float64` sizes and prices are modelled as exact rationals (`ℚ`).
  Every claim under study is about control flow and exact arithmetic on
  small quantities, not about binary floating-point rounding.
* Go pointer-mutated values (`*Order`, `*Limit`, `*OrderBook`) become
  values threaded explicitly.  `PlaceMarketOrder` additionally returns the
  incoming order, modelling Go's in-place mutation of `order.Size`; the
  `Limit` back-reference on `Order` (set in `AddOrder`, cleared in
  `DeleteOrder`) carries no information beyond membership and is dropped.
* The process-wide `OrderIndex` map is carried inside the (single) book as
  the list of its keys, `orderIndex : List Int`; the map's values (order
  reference and market name) are not consulted by any code under study.
  `OrderIndex[order.ID] = ...` becomes `indexInsert`; `delete(OrderIndex, id)`
  becomes a filter.
* The side maps `AskLimits`/`BidLimits : map[float64]*Limit` are carried as
  their key lists (`askLimits`, `bidLimits : List ℚ`); the value of a key
  is the limit with that price in the side's collection (the aliasing
  invariant proved below as part of C8).
* Go's `sort.Sort` (in place, unstable) is modelled by `List.insertionSort`
  with the corresponding `Less` relation made non-strict; on the states the
  claims quantify over, keys are distinct, where the two coincide.  The
  book's unsorted `asks`/`bids` slices are modelled as lists; after a
  market order the survivors are kept in the price-sorted order the loop
  visited them in, which agrees with the Go slice up to the (unobservable)
  internal ordering produced by swap-with-last deletion.
* `NewOrder`'s global id sequence and wall-clock timestamp are external
  state; orders enter the model as explicit values, with the monotone
  arrival timestamp given explicitly.
* Go errors become `Except String`; as in the source, every error is
  returned before any mutation, so an `.error` result carries no book.
-/

set_option maxHeartbeats 1000000

namespace Entity

/-- Go: `BID_ORDER OrderPlacement = "BID"`. -/
def BID_ORDER : String := "BID"

/-- Go: `ASK_ORDER OrderPlacement = "ASK"`. -/
def ASK_ORDER : String := "ASK"

/-- Go `Order` struct: id, placement tag, residual size, arrival timestamp.
The `Limit` back-reference is dropped (see header). -/
structure Order where
  id : Int
  orderPlacement : String
  size : ℚ
  timestamp : Int
deriving DecidableEq, Repr

/-- Go: `func (o *Order) IsFilled() bool { return o.Size == 0.0 }`. -/
def Order.IsFilled (o : Order) : Prop := o.size = 0

instance : DecidablePred Order.IsFilled :=
  fun o => inferInstanceAs (Decidable (o.size = 0))

/-- Go `Match` struct; the `*Order` fields are represented by the ids of the
two orders involved. -/
structure Match where
  askId : Int
  bidId : Int
  sizeFilled : ℚ
  price : ℚ
deriving DecidableEq, Repr

/-- The id of the resting (book-side) order recorded in a match produced
against incoming order `incoming`: `fillOrder` labels the resting order as
the ask of the match exactly when the incoming order is a bid. -/
def Match.restingId (m : Match) (incoming : Order) : Int :=
  if incoming.orderPlacement = BID_ORDER then m.askId else m.bidId

/-- Go `Limit` struct. -/
structure Limit where
  price : ℚ
  orders : List Order
  totalVolume : ℚ
deriving DecidableEq, Repr

/-- Sum of the residual sizes of a list of orders. -/
def sumSizes (os : List Order) : ℚ := (os.map Order.size).sum

/-- Ordering used by `sort.Sort(l.Orders)` (Go `Orders.Less` compares
timestamps). -/
def tsLe (a b : Order) : Prop := a.timestamp ≤ b.timestamp

instance : DecidableRel tsLe :=
  fun a b => inferInstanceAs (Decidable (a.timestamp ≤ b.timestamp))

/-- Go `NewLimit`: empty order queue, zero-valued total volume. -/
def NewLimit (price : ℚ) : Limit :=
  { price := price, orders := [], totalVolume := 0 }

/-- Go `Limit.AddOrder`: append at the tail, add the size to the volume. -/
def Limit.AddOrder (l : Limit) (o : Order) : Limit :=
  { l with orders := l.orders ++ [o], totalVolume := l.totalVolume + o.size }

/-- The slice surgery inside Go `Limit.DeleteOrder`: find the first entry
equal to `o`, overwrite it with the last entry, trim the last entry.  If
`o` is not found the slice is untouched. -/
def sliceSwapRemove : List Order → Order → List Order
  | [], _ => []
  | x :: xs, o =>
    if x = o then
      match xs.getLast? with
      | none => []
      | some lastElem => lastElem :: xs.dropLast
    else x :: sliceSwapRemove xs o

/-- Go `Limit.DeleteOrder`: remove `o` from the slice (swap-with-last),
then unconditionally subtract `o.Size` from `TotalVolume` and re-sort the
orders by timestamp.  Note the subtraction and the sort happen even when
`o` is not present. -/
def Limit.DeleteOrder (l : Limit) (o : Order) : Limit :=
  { l with
    orders := List.insertionSort tsLe (sliceSwapRemove l.orders o),
    totalVolume := l.totalVolume - o.size }

/-- Go `Limit.fillOrder`: labels `{matchingOrder, order}` as ask/bid from
the incoming order's placement, trades the minimum of the two residual
sizes, decrements both.  The `TotalVolume` decrement done here in Go is
accumulated by the caller (`fillWalk`'s `volDec`). -/
def Limit.fillOrder (l : Limit) (matchingOrder order : Order) :
    Order × Order × Match :=
  let ask := if order.orderPlacement = BID_ORDER then matchingOrder else order
  let bid := if order.orderPlacement = BID_ORDER then order else matchingOrder
  let sizeFilled := min ask.size bid.size
  let matchingOrder' : Order :=
    { matchingOrder with size := matchingOrder.size - sizeFilled }
  let order' : Order := { order with size := order.size - sizeFilled }
  (matchingOrder', order',
    { askId := ask.id, bidId := bid.id, sizeFilled := sizeFilled, price := l.price })

/-- Result of the matching loop inside Go `Limit.Fill`: the updated order
slice, the updated incoming order, the matches emitted, the queue of
exhausted resting orders (`ordersToDelete`), and the accumulated
`TotalVolume` decrement. -/
structure FillResult where
  orders : List Order
  incoming : Order
  matchList : List Match
  toDelete : List Order
  volDec : ℚ
deriving DecidableEq, Repr

/-- The `for _, matchingOrder := range l.Orders` loop of Go `Limit.Fill`:
one `fillOrder` per resting order in queue order, queueing exhausted
resting orders for deletion, breaking once the incoming order is filled. -/
def Limit.fillWalk (l : Limit) : List Order → Order → FillResult
  | [], order =>
    { orders := [], incoming := order, matchList := [], toDelete := [], volDec := 0 }
  | m :: rest, order =>
    let r0 := l.fillOrder m order
    let m' := r0.1
    let order' := r0.2.1
    let mt := r0.2.2
    let toDel : List Order := if m'.IsFilled then [m'] else []
    if order'.IsFilled then
      { orders := m' :: rest, incoming := order', matchList := [mt],
        toDelete := toDel, volDec := mt.sizeFilled }
    else
      let r := l.fillWalk rest order'
      { orders := m' :: r.orders, incoming := r.incoming,
        matchList := mt :: r.matchList, toDelete := toDel ++ r.toDelete,
        volDec := mt.sizeFilled + r.volDec }

/-- Go `Limit.Fill`: run the matching walk, then delete every exhausted
resting order in a second pass. -/
def Limit.Fill (l : Limit) (order : Order) : Limit × Order × List Match :=
  let r := l.fillWalk l.orders order
  let l' : Limit := { l with orders := r.orders, totalVolume := l.totalVolume - r.volDec }
  let l'' := r.toDelete.foldl (fun acc o => acc.DeleteOrder o) l'
  (l'', r.incoming, r.matchList)

/-- Go `OrderBook` struct; map fields carried as key lists, the global
`OrderIndex` carried as its key list (see header). -/
structure OrderBook where
  market : String
  asks : List Limit
  bids : List Limit
  askLimits : List ℚ
  bidLimits : List ℚ
  orderIndex : List Int
deriving DecidableEq, Repr

/-- Go `NewOrderBook`. -/
def NewOrderBook (market : String) : OrderBook :=
  { market := market, asks := [], bids := [], askLimits := [], bidLimits := [],
    orderIndex := [] }

/-- Go `OrderBook.AskTotalVolume`. -/
def OrderBook.AskTotalVolume (ob : OrderBook) : ℚ :=
  (ob.asks.map Limit.totalVolume).sum

/-- Go `OrderBook.BidTotalVolume`. -/
def OrderBook.BidTotalVolume (ob : OrderBook) : ℚ :=
  (ob.bids.map Limit.totalVolume).sum

/-- `ByBestAsk.Less` made non-strict: ascending price. -/
def askLe (a b : Limit) : Prop := a.price ≤ b.price

/-- `ByBestBid.Less` made non-strict: descending price. -/
def bidLe (a b : Limit) : Prop := b.price ≤ a.price

instance : DecidableRel askLe :=
  fun a b => inferInstanceAs (Decidable (a.price ≤ b.price))

instance : DecidableRel bidLe :=
  fun a b => inferInstanceAs (Decidable (b.price ≤ a.price))

/-- Go `OrderBook.Asks`: the ask limits in best-price (ascending) order. -/
def OrderBook.Asks (ob : OrderBook) : List Limit :=
  List.insertionSort askLe ob.asks

/-- Go `OrderBook.Bids`: the bid limits in best-price (descending) order. -/
def OrderBook.Bids (ob : OrderBook) : List Limit :=
  List.insertionSort bidLe ob.bids

/-- Result of the limit-sweeping loop of Go `PlaceMarketOrder`: surviving
limits (in visit order), prices of the limits drained to zero volume and
deleted, the updated incoming order, and the accumulated matches. -/
structure WalkResult where
  limits : List Limit
  removedPrices : List ℚ
  incoming : Order
  matchList : List Match
deriving DecidableEq, Repr

/-- The `for _, limit := range ob.Asks()` (resp. `Bids()`) loop of Go
`PlaceMarketOrder`: `Fill` each limit in price priority, delete it if its
volume reached zero, stop once the incoming order is filled. -/
def marketWalk : List Limit → Order → WalkResult
  | [], order =>
    { limits := [], removedPrices := [], incoming := order, matchList := [] }
  | l :: rest, order =>
    let f := l.Fill order
    let l' := f.1
    let order' := f.2.1
    let ms := f.2.2
    if l'.totalVolume = 0 then
      if order'.IsFilled then
        { limits := rest, removedPrices := [l'.price], incoming := order',
          matchList := ms }
      else
        let r := marketWalk rest order'
        { limits := r.limits, removedPrices := l'.price :: r.removedPrices,
          incoming := r.incoming, matchList := ms ++ r.matchList }
    else
      if order'.IsFilled then
        { limits := l' :: rest, removedPrices := [], incoming := order',
          matchList := ms }
      else
        let r := marketWalk rest order'
        { limits := l' :: r.limits, removedPrices := r.removedPrices,
          incoming := r.incoming, matchList := ms ++ r.matchList }

/-- Error of the insufficient-ask-liquidity rejection (Go formats the two
volumes into the message; the constant prefix is kept). -/
def errNotEnoughAskVolume : String :=
  "PlaceMarketOrder: not enough ask volume in the market"

/-- Error of the insufficient-bid-liquidity rejection. -/
def errNotEnoughBidVolume : String :=
  "PlaceMarketOrder: not enough bid volume in the market"

/-- Go: `errors.New("invalid order placement")`. -/
def errInvalidOrderPlacement : String := "invalid order placement"

/-- Go: `ErrNotFound = errors.New("not found")`. -/
def errNotFound : String := "not found"

/-- Go `OrderBook.PlaceMarketOrder`.  The returned `Order` is the incoming
order after its in-place size mutation. -/
def OrderBook.PlaceMarketOrder (ob : OrderBook) (order : Order) :
    Except String (OrderBook × Order × List Match) :=
  if order.orderPlacement = BID_ORDER then
    if ob.AskTotalVolume < order.size then Except.error errNotEnoughAskVolume
    else
      let r := marketWalk ob.Asks order
      Except.ok
        ({ ob with asks := r.limits,
                   askLimits := ob.askLimits.filter
                     (fun p => decide (¬ p ∈ r.removedPrices)) },
         r.incoming, r.matchList)
  else
    if ob.BidTotalVolume < order.size then Except.error errNotEnoughBidVolume
    else
      let r := marketWalk ob.Bids order
      Except.ok
        ({ ob with bids := r.limits,
                   bidLimits := ob.bidLimits.filter
                     (fun p => decide (¬ p ∈ r.removedPrices)) },
         r.incoming, r.matchList)

/-- `limit.AddOrder(order)` applied through the side map's alias: the
limit with the looked-up price receives the order. -/
def updateLimitAtPrice : List Limit → ℚ → Order → List Limit
  | [], _, _ => []
  | l :: rest, price, o =>
    if l.price = price then l.AddOrder o :: rest
    else l :: updateLimitAtPrice rest price o

/-- Go `OrderIndex[order.ID] = OrderMetadata{...}`: map-key insertion. -/
def indexInsert (idx : List Int) (i : Int) : List Int :=
  if i ∈ idx then idx else idx ++ [i]

/-- Go `OrderBook.PlaceLimitOrder`. -/
def OrderBook.PlaceLimitOrder (ob : OrderBook) (price : ℚ) (order : Order) :
    Except String OrderBook :=
  if order.orderPlacement = BID_ORDER then
    if price ∈ ob.bidLimits then
      Except.ok { ob with
        bids := updateLimitAtPrice ob.bids price order,
        orderIndex := indexInsert ob.orderIndex order.id }
    else
      Except.ok { ob with
        bids := ob.bids ++ [(NewLimit price).AddOrder order],
        bidLimits := ob.bidLimits ++ [price],
        orderIndex := indexInsert ob.orderIndex order.id }
  else if order.orderPlacement = ASK_ORDER then
    if price ∈ ob.askLimits then
      Except.ok { ob with
        asks := updateLimitAtPrice ob.asks price order,
        orderIndex := indexInsert ob.orderIndex order.id }
    else
      Except.ok { ob with
        asks := ob.asks ++ [(NewLimit price).AddOrder order],
        askLimits := ob.askLimits ++ [price],
        orderIndex := indexInsert ob.orderIndex order.id }
  else Except.error errInvalidOrderPlacement

/-- The double loop of Go `CancelOrderByID` over one side: find the first
limit holding an order with the given id, `DeleteOrder` it there, and
report the limit's price for `deleteLimit` when its volume reached zero.
`none` when no limit on the side holds the id. -/
def cancelScan : List Limit → Int → Option (List Limit × List ℚ)
  | [], _ => none
  | l :: rest, orderId =>
    match l.orders.find? (fun o => decide (o.id = orderId)) with
    | some o =>
      let l' := l.DeleteOrder o
      if l'.totalVolume = 0 then some (rest, [l'.price])
      else some (l' :: rest, [])
    | none => (cancelScan rest orderId).map (fun p => (l :: p.1, p.2))

/-- Go `OrderBook.CancelOrderByID`; any placement other than `BID` selects
the ask side, as in the source's `else` branch. -/
def OrderBook.CancelOrderByID (ob : OrderBook) (orderId : Int)
    (orderPlacement : String) : Except String OrderBook :=
  if orderPlacement = BID_ORDER then
    match cancelScan ob.bids orderId with
    | none => Except.error errNotFound
    | some (bids', removed) =>
      Except.ok { ob with
        bids := bids',
        bidLimits := ob.bidLimits.filter (fun p => decide (¬ p ∈ removed)),
        orderIndex := ob.orderIndex.filter (fun i => decide (¬ i = orderId)) }
  else
    match cancelScan ob.asks orderId with
    | none => Except.error errNotFound
    | some (asks', removed) =>
      Except.ok { ob with
        asks := asks',
        askLimits := ob.askLimits.filter (fun p => decide (¬ p ∈ removed)),
        orderIndex := ob.orderIndex.filter (fun i => decide (¬ i = orderId)) }

/-- The books producible by sequences of successful public operations
starting from a new book. -/
inductive Reachable : OrderBook → Prop
  | init (market : String) : Reachable (NewOrderBook market)
  | placeLimit {ob ob' : OrderBook} {price : ℚ} {order : Order} :
      Reachable ob → ob.PlaceLimitOrder price order = Except.ok ob' →
      Reachable ob'
  | placeMarket {ob ob' : OrderBook} {order order' : Order} {ms : List Match} :
      Reachable ob → ob.PlaceMarketOrder order = Except.ok (ob', order', ms) →
      Reachable ob'
  | cancel {ob ob' : OrderBook} {orderId : Int} {placement : String} :
      Reachable ob → ob.CancelOrderByID orderId placement = Except.ok ob' →
      Reachable ob'

/-- Structural health of one book side: distinct prices, the price map's
keys are exactly the prices of the side's limits, and every limit's cached
volume is the sum of its orders' residual sizes. -/
def sideOk (limits : List Limit) (keyset : List ℚ) : Prop :=
  (limits.map Limit.price).Nodup ∧
  (∀ p : ℚ, p ∈ keyset ↔ p ∈ limits.map Limit.price) ∧
  (∀ l ∈ limits, l.totalVolume = sumSizes l.orders)

/-- Both sides structurally healthy. -/
def WF (ob : OrderBook) : Prop :=
  sideOk ob.asks ob.askLimits ∧ sideOk ob.bids ob.bidLimits

end Entity

namespace Entity

/-! ### Bookkeeping lemmas: sums of residual sizes -/

theorem sumSizes_nil : sumSizes [] = 0 := rfl

theorem sumSizes_cons (o : Order) (os : List Order) :
    sumSizes (o :: os) = o.size + sumSizes os := by
  simp [sumSizes]

theorem sumSizes_append (os₁ os₂ : List Order) :
    sumSizes (os₁ ++ os₂) = sumSizes os₁ + sumSizes os₂ := by
  simp [sumSizes]

theorem sumSizes_perm {os₁ os₂ : List Order} (h : os₁.Perm os₂) :
    sumSizes os₁ = sumSizes os₂ :=
  (h.map Order.size).sum_eq

theorem sumSizes_insertionSort (os : List Order) :
    sumSizes (List.insertionSort tsLe os) = sumSizes os :=
  sumSizes_perm (List.perm_insertionSort tsLe os)

theorem sumSizes_nonneg {os : List Order} (h : ∀ o ∈ os, 0 ≤ o.size) :
    0 ≤ sumSizes os := by
  induction os with
  | nil => simp [sumSizes]
  | cons o os ih =>
    rw [sumSizes_cons]
    have h1 := h o (by simp)
    have h2 := ih (fun o' ho' => h o' (by simp [ho']))
    linarith

/-! ### Lemmas about the swap-with-last removal and `DeleteOrder` -/

theorem sliceSwapRemove_not_mem (os : List Order) (o : Order) (h : ¬ o ∈ os) :
    sliceSwapRemove os o = os := by
  induction os with
  | nil => rfl
  | cons x xs ih =>
    have hx : ¬ x = o := fun he => h (by simp [he])
    simp only [sliceSwapRemove, if_neg hx]
    rw [ih (fun hm => h (by simp [hm]))]

theorem sumSizes_sliceSwapRemove (os : List Order) (o : Order) :
    sumSizes (sliceSwapRemove os o) =
      if o ∈ os then sumSizes os - o.size else sumSizes os := by
  induction os with
  | nil => simp [sliceSwapRemove]
  | cons x xs ih =>
    by_cases hx : x = o
    · subst hx
      cases xs with
      | nil => simp [sliceSwapRemove, sumSizes]
      | cons y ys =>
        have hne : (y :: ys : List Order) ≠ [] := by simp
        have hsplit : (y :: ys).dropLast ++ [(y :: ys).getLast hne] = y :: ys :=
          List.dropLast_append_getLast hne
        have h1 : sumSizes (y :: ys) =
            sumSizes ((y :: ys).dropLast) + ((y :: ys).getLast hne).size := by
          conv_lhs => rw [← hsplit]
          rw [sumSizes_append, sumSizes_cons, sumSizes_nil]
          ring
        simp only [sliceSwapRemove, if_pos rfl,
          List.getLast?_eq_getLast_of_ne_nil hne, List.mem_cons, true_or, if_pos,
          sumSizes_cons]
        linarith [h1, sumSizes_cons y ys]
    · have hme : (o ∈ x :: xs) ↔ (o ∈ xs) := by
        constructor
        · intro hc
          rcases List.mem_cons.mp hc with he | hm
          · exact absurd he.symm hx
          · exact hm
        · intro hc
          exact List.mem_cons_of_mem x hc
      simp only [sliceSwapRemove, if_neg hx, sumSizes_cons, ih]
      by_cases hm : o ∈ xs
      · rw [if_pos hm, if_pos (hme.mpr hm)]
        ring
      · rw [if_neg hm, if_neg (fun hc => hm (hme.mp hc))]

theorem DeleteOrder_price (l : Limit) (o : Order) :
    (l.DeleteOrder o).price = l.price := rfl

theorem DeleteOrder_totalVolume (l : Limit) (o : Order) :
    (l.DeleteOrder o).totalVolume = l.totalVolume - o.size := rfl

theorem sumSizes_DeleteOrder (l : Limit) (o : Order) :
    sumSizes (l.DeleteOrder o).orders =
      if o ∈ l.orders then sumSizes l.orders - o.size else sumSizes l.orders := by
  simp only [Limit.DeleteOrder, sumSizes_insertionSort, sumSizes_sliceSwapRemove]

theorem DeleteOrder_inv_of_mem (l : Limit) (o : Order) (hm : o ∈ l.orders)
    (h : l.totalVolume = sumSizes l.orders) :
    (l.DeleteOrder o).totalVolume = sumSizes (l.DeleteOrder o).orders := by
  rw [DeleteOrder_totalVolume, sumSizes_DeleteOrder, if_pos hm, h]

theorem DeleteOrder_inv_of_zero (l : Limit) (o : Order) (hz : o.size = 0)
    (h : l.totalVolume = sumSizes l.orders) :
    (l.DeleteOrder o).totalVolume = sumSizes (l.DeleteOrder o).orders := by
  rw [DeleteOrder_totalVolume, sumSizes_DeleteOrder, hz]
  split <;> simp [h]

theorem foldl_DeleteOrder_price (ds : List Order) (l : Limit) :
    (ds.foldl (fun acc o => acc.DeleteOrder o) l).price = l.price := by
  induction ds generalizing l with
  | nil => rfl
  | cons d ds ih => rw [List.foldl_cons, ih, DeleteOrder_price]

theorem foldl_DeleteOrder_totalVolume (ds : List Order) (l : Limit)
    (h : ∀ d ∈ ds, d.size = 0) :
    (ds.foldl (fun acc o => acc.DeleteOrder o) l).totalVolume = l.totalVolume := by
  induction ds generalizing l with
  | nil => rfl
  | cons d ds ih =>
    rw [List.foldl_cons, ih _ (fun d' hd' => h d' (by simp [hd'])),
      DeleteOrder_totalVolume, h d (by simp)]
    ring

theorem foldl_DeleteOrder_inv (ds : List Order) (l : Limit)
    (hz : ∀ d ∈ ds, d.size = 0) (h : l.totalVolume = sumSizes l.orders) :
    (ds.foldl (fun acc o => acc.DeleteOrder o) l).totalVolume =
      sumSizes (ds.foldl (fun acc o => acc.DeleteOrder o) l).orders := by
  induction ds generalizing l with
  | nil => exact h
  | cons d ds ih =>
    rw [List.foldl_cons]
    exact ih _ (fun d' hd' => hz d' (by simp [hd']))
      (DeleteOrder_inv_of_zero l d (hz d (by simp)) h)

end Entity

namespace Entity

/-! ### Lemmas about `fillOrder` -/

theorem fillOrder_matching (l : Limit) (m o : Order) :
    (l.fillOrder m o).1 = { m with size := m.size - min m.size o.size } := by
  unfold Limit.fillOrder
  by_cases hp : o.orderPlacement = BID_ORDER <;> simp [hp, min_comm]

theorem fillOrder_incoming (l : Limit) (m o : Order) :
    (l.fillOrder m o).2.1 = { o with size := o.size - min m.size o.size } := by
  unfold Limit.fillOrder
  by_cases hp : o.orderPlacement = BID_ORDER <;> simp [hp, min_comm]

theorem fillOrder_sizeFilled (l : Limit) (m o : Order) :
    (l.fillOrder m o).2.2.sizeFilled = min m.size o.size := by
  unfold Limit.fillOrder
  by_cases hp : o.orderPlacement = BID_ORDER <;> simp [hp, min_comm]

theorem fillOrder_matchPrice (l : Limit) (m o : Order) :
    (l.fillOrder m o).2.2.price = l.price := by
  unfold Limit.fillOrder
  by_cases hp : o.orderPlacement = BID_ORDER <;> simp [hp]

theorem fillOrder_restingId (l : Limit) (m o : Order) :
    (l.fillOrder m o).2.2.restingId o = m.id := by
  unfold Limit.fillOrder Match.restingId
  by_cases hp : o.orderPlacement = BID_ORDER <;> simp [hp]

/-! ### Lemmas about the matching walk `fillWalk` -/

theorem fillWalk_orders_length (l : Limit) (os : List Order) (o : Order) :
    (l.fillWalk os o).orders.length = os.length := by
  induction os generalizing o with
  | nil => rfl
  | cons m rest ih =>
    rw [Limit.fillWalk]
    split <;> simp [ih]

theorem fillWalk_incoming_size (l : Limit) (os : List Order) (o : Order) :
    (l.fillWalk os o).incoming.size = o.size - (l.fillWalk os o).volDec := by
  induction os generalizing o with
  | nil => simp [Limit.fillWalk]
  | cons m rest ih =>
    rw [Limit.fillWalk]
    split
    · simp [fillOrder_incoming, fillOrder_sizeFilled]
    · simp only [ih, fillOrder_incoming, fillOrder_sizeFilled]
      ring

theorem fillWalk_incoming_placement (l : Limit) (os : List Order) (o : Order) :
    (l.fillWalk os o).incoming.orderPlacement = o.orderPlacement := by
  induction os generalizing o with
  | nil => rfl
  | cons m rest ih =>
    rw [Limit.fillWalk]
    split
    · simp [fillOrder_incoming]
    · simp [ih, fillOrder_incoming]

theorem fillWalk_incoming_id (l : Limit) (os : List Order) (o : Order) :
    (l.fillWalk os o).incoming.id = o.id := by
  induction os generalizing o with
  | nil => rfl
  | cons m rest ih =>
    rw [Limit.fillWalk]
    split
    · simp [fillOrder_incoming]
    · simp [ih, fillOrder_incoming]

theorem fillWalk_sum (l : Limit) (os : List Order) (o : Order) :
    sumSizes (l.fillWalk os o).orders = sumSizes os - (l.fillWalk os o).volDec := by
  induction os generalizing o with
  | nil => simp [Limit.fillWalk]
  | cons m rest ih =>
    rw [Limit.fillWalk]
    split
    · simp only [sumSizes_cons, fillOrder_matching, fillOrder_sizeFilled]
      ring
    · simp only [sumSizes_cons, fillOrder_matching, fillOrder_sizeFilled, ih]
      ring

theorem fillWalk_toDelete_size (l : Limit) (os : List Order) (o : Order) :
    ∀ d ∈ (l.fillWalk os o).toDelete, d.size = 0 := by
  induction os generalizing o with
  | nil => intro d hd; simp [Limit.fillWalk] at hd
  | cons m rest ih =>
    intro d hd
    rw [Limit.fillWalk] at hd
    split at hd
    · simp only at hd
      split at hd
      · next hz =>
        rcases List.mem_singleton.mp hd with rfl
        simpa [Order.IsFilled] using hz
      · simp at hd
    · simp only [List.mem_append] at hd
      rcases hd with hd | hd
      · split at hd
        · next hz =>
          rcases List.mem_singleton.mp hd with rfl
          simpa [Order.IsFilled] using hz
        · simp at hd
      · exact ih _ d hd

end Entity

namespace Entity

/-! ### Lemmas about `Limit.Fill` -/

theorem Fill_price (l : Limit) (o : Order) : (l.Fill o).1.price = l.price := by
  unfold Limit.Fill
  simp only [foldl_DeleteOrder_price]

theorem Fill_incoming (l : Limit) (o : Order) :
    (l.Fill o).2.1 = (l.fillWalk l.orders o).incoming := rfl

theorem Fill_matchList (l : Limit) (o : Order) :
    (l.Fill o).2.2 = (l.fillWalk l.orders o).matchList := rfl

theorem Fill_totalVolume (l : Limit) (o : Order) :
    (l.Fill o).1.totalVolume = l.totalVolume - (l.fillWalk l.orders o).volDec := by
  unfold Limit.Fill
  simp only [foldl_DeleteOrder_totalVolume _ _ (fillWalk_toDelete_size l l.orders o)]

theorem Fill_inv (l : Limit) (o : Order) (h : l.totalVolume = sumSizes l.orders) :
    (l.Fill o).1.totalVolume = sumSizes (l.Fill o).1.orders := by
  unfold Limit.Fill
  simp only
  apply foldl_DeleteOrder_inv _ _ (fillWalk_toDelete_size l l.orders o)
  simp only [fillWalk_sum, h]

theorem Fill_incoming_size (l : Limit) (o : Order) :
    (l.Fill o).2.1.size = o.size - (l.fillWalk l.orders o).volDec := by
  rw [Fill_incoming, fillWalk_incoming_size]

/-! ### Lemmas about the limit-sweeping walk `marketWalk` -/

theorem marketWalk_limit_inv (ls : List Limit) (o : Order)
    (h : ∀ l ∈ ls, l.totalVolume = sumSizes l.orders) :
    ∀ l' ∈ (marketWalk ls o).limits, l'.totalVolume = sumSizes l'.orders := by
  induction ls generalizing o with
  | nil => intro l' hl'; simp [marketWalk] at hl'
  | cons l rest ih =>
    intro l' hl'
    have hrest : ∀ l'' ∈ rest, l''.totalVolume = sumSizes l''.orders :=
      fun l'' hl'' => h l'' (by simp [hl''])
    have hfill : (l.Fill o).1.totalVolume = sumSizes (l.Fill o).1.orders :=
      Fill_inv l o (h l (by simp))
    rw [marketWalk] at hl'
    split at hl'
    · split at hl'
      · exact hrest l' hl'
      · exact ih _ hrest l' hl'
    · split at hl'
      · simp only [List.mem_cons] at hl'
        rcases hl' with rfl | hl'
        · exact hfill
        · exact hrest l' hl'
      · simp only [List.mem_cons] at hl'
        rcases hl' with rfl | hl'
        · exact hfill
        · exact ih _ hrest l' hl'

theorem marketWalk_prices_sublist (ls : List Limit) (o : Order) :
    ((marketWalk ls o).limits.map Limit.price).Sublist (ls.map Limit.price) := by
  induction ls generalizing o with
  | nil => simp [marketWalk]
  | cons l rest ih =>
    rw [marketWalk]
    split
    · split
      · simp only [List.map_cons]
        exact (List.sublist_cons_self _ _).trans (List.Sublist.refl _)
      · simp only [List.map_cons]
        exact (ih _).trans (List.sublist_cons_self _ _)
    · split
      · simp only [List.map_cons, Fill_price]
        exact List.Sublist.refl _
      · simp only [List.map_cons, Fill_price]
        exact List.Sublist.cons₂ _ (ih _)

theorem marketWalk_prices_perm (ls : List Limit) (o : Order) :
    ((marketWalk ls o).limits.map Limit.price ++ (marketWalk ls o).removedPrices).Perm
      (ls.map Limit.price) := by
  induction ls generalizing o with
  | nil => simp [marketWalk]
  | cons l rest ih =>
    rw [marketWalk]
    split
    · split
      · simp only [List.map_cons, Fill_price]
        exact List.perm_append_singleton _ _
      · simp only [List.map_cons, Fill_price]
        exact List.perm_middle.trans ((ih _).cons l.price)
    · split
      · simp only [List.map_cons, Fill_price, List.append_nil]
        exact List.Perm.refl _
      · simp only [List.map_cons, Fill_price, List.cons_append]
        exact ((ih _).cons l.price)

end Entity

namespace Entity

/-! ### Side-level preservation lemmas -/

theorem updateLimitAtPrice_map_price (ls : List Limit) (p : ℚ) (o : Order) :
    (updateLimitAtPrice ls p o).map Limit.price = ls.map Limit.price := by
  induction ls with
  | nil => rfl
  | cons l rest ih =>
    rw [updateLimitAtPrice]
    split
    · simp [Limit.AddOrder]
    · simp [ih]

theorem updateLimitAtPrice_inv (ls : List Limit) (p : ℚ) (o : Order)
    (h : ∀ l ∈ ls, l.totalVolume = sumSizes l.orders) :
    ∀ l' ∈ updateLimitAtPrice ls p o, l'.totalVolume = sumSizes l'.orders := by
  induction ls with
  | nil => intro l' hl'; simp [updateLimitAtPrice] at hl'
  | cons l rest ih =>
    intro l' hl'
    rw [updateLimitAtPrice] at hl'
    split at hl'
    · rcases List.mem_cons.mp hl' with rfl | hl'
      · have hbase := h l (by simp)
        simp [Limit.AddOrder, sumSizes_append, sumSizes_cons, sumSizes_nil, hbase]
      · exact h l' (by simp [hl'])
    · rcases List.mem_cons.mp hl' with rfl | hl'
      · exact h l' (by simp)
      · exact ih (fun x hx => h x (by simp [hx])) l' hl'

theorem sideOk_update {ls : List Limit} {ks : List ℚ} (h : sideOk ls ks)
    (p : ℚ) (o : Order) : sideOk (updateLimitAtPrice ls p o) ks := by
  obtain ⟨hnd, hiff, hinv⟩ := h
  refine ⟨?_, ?_, updateLimitAtPrice_inv ls p o hinv⟩
  · rw [updateLimitAtPrice_map_price]; exact hnd
  · intro q
    rw [updateLimitAtPrice_map_price]
    exact hiff q

theorem sideOk_append {ls : List Limit} {ks : List ℚ} (h : sideOk ls ks)
    (p : ℚ) (o : Order) (hp : ¬ p ∈ ks) :
    sideOk (ls ++ [(NewLimit p).AddOrder o]) (ks ++ [p]) := by
  obtain ⟨hnd, hiff, hinv⟩ := h
  have hpp : ¬ p ∈ ls.map Limit.price := fun hc => hp ((hiff p).mpr hc)
  refine ⟨?_, ?_, ?_⟩
  · simp only [List.map_append, List.map_cons, List.map_nil, NewLimit, Limit.AddOrder]
    rw [List.nodup_append]
    exact ⟨hnd, List.nodup_singleton p, by
      intro q hq hq'
      rcases List.mem_singleton.mp hq' with rfl
      exact hpp hq⟩
  · intro q
    simp only [List.mem_append, List.mem_singleton, List.map_append, List.map_cons,
      List.map_nil, NewLimit, Limit.AddOrder]
    rw [hiff q]
  · intro l' hl'
    rcases List.mem_append.mp hl' with hl' | hl'
    · exact hinv l' hl'
    · rcases List.mem_singleton.mp hl' with rfl
      simp [NewLimit, Limit.AddOrder, sumSizes_cons, sumSizes_nil]

theorem sideOk_of_perm_filter {ls0 newLs : List Limit} {ks rem : List ℚ}
    (h : sideOk ls0 ks)
    (hperm : (newLs.map Limit.price ++ rem).Perm (ls0.map Limit.price))
    (hinv : ∀ l ∈ newLs, l.totalVolume = sumSizes l.orders) :
    sideOk newLs (ks.filter (fun p => decide (¬ p ∈ rem))) := by
  obtain ⟨hnd, hiff, _⟩ := h
  have hnd2 : (newLs.map Limit.price ++ rem).Nodup := hperm.nodup_iff.mpr hnd
  refine ⟨(List.nodup_append.mp hnd2).1, ?_, hinv⟩
  intro p
  rw [List.mem_filter]
  constructor
  · rintro ⟨hpk, hpd⟩
    have hnr : ¬ p ∈ rem := by simpa using hpd
    have hp0 : p ∈ ls0.map Limit.price := (hiff p).mp hpk
    rcases List.mem_append.mp (hperm.mem_iff.mpr hp0) with hp1 | hp1
    · exact hp1
    · exact absurd hp1 hnr
  · intro hp
    refine ⟨(hiff p).mpr (hperm.mem_iff.mp (List.mem_append.mpr (Or.inl hp))), ?_⟩
    have hdisj := List.disjoint_of_nodup_append hnd2
    simpa using fun hr => hdisj hp hr

/-! ### Lemmas about `cancelScan` -/

theorem cancelScan_prices_perm (ls : List Limit) (oid : Int)
    {ls' : List Limit} {rem : List ℚ} (h : cancelScan ls oid = some (ls', rem)) :
    (ls'.map Limit.price ++ rem).Perm (ls.map Limit.price) := by
  induction ls generalizing ls' rem with
  | nil => simp [cancelScan] at h
  | cons l rest ih =>
    rw [cancelScan] at h
    split at h
    · next o hfind =>
      simp only [] at h
      split at h
      · simp only [Option.some.injEq, Prod.mk.injEq] at h
        obtain ⟨h1, h2⟩ := h
        subst h1
        subst h2
        simp only [List.map_cons, DeleteOrder_price]
        exact List.perm_append_singleton _ _
      · simp only [Option.some.injEq, Prod.mk.injEq] at h
        obtain ⟨h1, h2⟩ := h
        subst h1
        subst h2
        simp only [List.map_cons, DeleteOrder_price, List.cons_append, List.append_nil]
        exact List.Perm.refl _
    · next hfind =>
      cases hsc : cancelScan rest oid with
      | none =>
        rw [hsc] at h
        simp at h
      | some pr =>
        obtain ⟨ls'', rem''⟩ := pr
        rw [hsc] at h
        simp only [Option.map_some', Option.some.injEq, Prod.mk.injEq] at h
        obtain ⟨h1, h2⟩ := h
        subst h1
        subst h2
        simp only [List.map_cons, List.cons_append]
        exact (ih hsc).cons l.price

theorem cancelScan_inv (ls : List Limit) (oid : Int)
    {ls' : List Limit} {rem : List ℚ} (h : cancelScan ls oid = some (ls', rem))
    (hinv : ∀ l ∈ ls, l.totalVolume = sumSizes l.orders) :
    ∀ l' ∈ ls', l'.totalVolume = sumSizes l'.orders := by
  induction ls generalizing ls' rem with
  | nil => simp [cancelScan] at h
  | cons l rest ih =>
    have hrest : ∀ x ∈ rest, x.totalVolume = sumSizes x.orders :=
      fun x hx => hinv x (by simp [hx])
    rw [cancelScan] at h
    split at h
    · next o hfind =>
      have homem : o ∈ l.orders := List.mem_of_find?_eq_some hfind
      have hdel : (l.DeleteOrder o).totalVolume = sumSizes (l.DeleteOrder o).orders :=
        DeleteOrder_inv_of_mem l o homem (hinv l (by simp))
      simp only [] at h
      split at h
      · simp only [Option.some.injEq, Prod.mk.injEq] at h
        obtain ⟨h1, h2⟩ := h
        subst h1
        exact hrest
      · simp only [Option.some.injEq, Prod.mk.injEq] at h
        obtain ⟨h1, h2⟩ := h
        subst h1
        intro l' hl'
        rcases List.mem_cons.mp hl' with rfl | hl'
        · exact hdel
        · exact hrest l' hl'
    · next hfind =>
      cases hsc : cancelScan rest oid with
      | none =>
        rw [hsc] at h
        simp at h
      | some pr =>
        obtain ⟨ls'', rem''⟩ := pr
        rw [hsc] at h
        simp only [Option.map_some', Option.some.injEq, Prod.mk.injEq] at h
        obtain ⟨h1, h2⟩ := h
        subst h1
        intro l' hl'
        rcases List.mem_cons.mp hl' with rfl | hl'
        · exact hinv l' (by simp)
        · exact ih hsc hrest l' hl'

end Entity

namespace Entity

/-! ### Preservation of structural health by the public operations -/

theorem WF_new (market : String) : WF (NewOrderBook market) := by
  refine ⟨⟨?_, ?_, ?_⟩, ⟨?_, ?_, ?_⟩⟩ <;> simp [NewOrderBook, sideOk]

theorem WF_placeLimit {ob ob' : OrderBook} {price : ℚ} {order : Order}
    (hwf : WF ob) (h : ob.PlaceLimitOrder price order = Except.ok ob') : WF ob' := by
  unfold OrderBook.PlaceLimitOrder at h
  by_cases hb : order.orderPlacement = BID_ORDER
  · rw [if_pos hb] at h
    by_cases hm : price ∈ ob.bidLimits
    · rw [if_pos hm] at h
      have h' := Except.ok.inj h
      subst h'
      exact ⟨hwf.1, sideOk_update hwf.2 price order⟩
    · rw [if_neg hm] at h
      have h' := Except.ok.inj h
      subst h'
      exact ⟨hwf.1, sideOk_append hwf.2 price order hm⟩
  · rw [if_neg hb] at h
    by_cases ha : order.orderPlacement = ASK_ORDER
    · rw [if_pos ha] at h
      by_cases hm : price ∈ ob.askLimits
      · rw [if_pos hm] at h
        have h' := Except.ok.inj h
        subst h'
        exact ⟨sideOk_update hwf.1 price order, hwf.2⟩
      · rw [if_neg hm] at h
        have h' := Except.ok.inj h
        subst h'
        exact ⟨sideOk_append hwf.1 price order hm, hwf.2⟩
    · rw [if_neg ha] at h
      exact absurd h (by simp)

theorem WF_market {ob ob' : OrderBook} {order incoming' : Order} {ms : List Match}
    (hwf : WF ob) (h : ob.PlaceMarketOrder order = Except.ok (ob', incoming', ms)) :
    WF ob' := by
  unfold OrderBook.PlaceMarketOrder at h
  by_cases hb : order.orderPlacement = BID_ORDER
  · rw [if_pos hb] at h
    by_cases hv : ob.AskTotalVolume < order.size
    · rw [if_pos hv] at h
      exact absurd h (by simp)
    · rw [if_neg hv] at h
      simp only [Except.ok.injEq, Prod.mk.injEq] at h
      obtain ⟨h1, h2, h3⟩ := h
      subst h1
      have hperm1 : (ob.Asks).Perm ob.asks := List.perm_insertionSort askLe ob.asks
      refine ⟨?_, hwf.2⟩
      exact sideOk_of_perm_filter hwf.1
        ((marketWalk_prices_perm ob.Asks order).trans
          ((hperm1.map Limit.price).trans (List.Perm.refl _)))
        (marketWalk_limit_inv ob.Asks order
          (fun l hl => hwf.1.2.2 l (hperm1.subset hl)))
  · rw [if_neg hb] at h
    by_cases hv : ob.BidTotalVolume < order.size
    · rw [if_pos hv] at h
      exact absurd h (by simp)
    · rw [if_neg hv] at h
      simp only [Except.ok.injEq, Prod.mk.injEq] at h
      obtain ⟨h1, h2, h3⟩ := h
      subst h1
      have hperm1 : (ob.Bids).Perm ob.bids := List.perm_insertionSort bidLe ob.bids
      refine ⟨hwf.1, ?_⟩
      exact sideOk_of_perm_filter hwf.2
        ((marketWalk_prices_perm ob.Bids order).trans
          ((hperm1.map Limit.price).trans (List.Perm.refl _)))
        (marketWalk_limit_inv ob.Bids order
          (fun l hl => hwf.2.2.2 l (hperm1.subset hl)))

theorem WF_cancel {ob ob' : OrderBook} {orderId : Int} {placement : String}
    (hwf : WF ob) (h : ob.CancelOrderByID orderId placement = Except.ok ob') :
    WF ob' := by
  unfold OrderBook.CancelOrderByID at h
  by_cases hb : placement = BID_ORDER
  · rw [if_pos hb] at h
    cases hsc : cancelScan ob.bids orderId with
    | none =>
      rw [hsc] at h
      exact absurd h (by simp)
    | some pr =>
      obtain ⟨bids', rem⟩ := pr
      rw [hsc] at h
      have h' := Except.ok.inj h
      subst h'
      refine ⟨hwf.1, ?_⟩
      exact sideOk_of_perm_filter hwf.2 (cancelScan_prices_perm ob.bids orderId hsc)
        (cancelScan_inv ob.bids orderId hsc hwf.2.2.2)
  · rw [if_neg hb] at h
    cases hsc : cancelScan ob.asks orderId with
    | none =>
      rw [hsc] at h
      exact absurd h (by simp)
    | some pr =>
      obtain ⟨asks', rem⟩ := pr
      rw [hsc] at h
      have h' := Except.ok.inj h
      subst h'
      refine ⟨?_, hwf.2⟩
      exact sideOk_of_perm_filter hwf.1 (cancelScan_prices_perm ob.asks orderId hsc)
        (cancelScan_inv ob.asks orderId hsc hwf.1.2.2)

/-- Every reachable book is structurally healthy. -/
theorem wf_of_reachable {ob : OrderBook} (h : Reachable ob) : WF ob := by
  induction h with
  | init market => exact WF_new market
  | placeLimit _ heq ih => exact WF_placeLimit ih heq
  | placeMarket _ heq ih => exact WF_market ih heq
  | cancel _ heq ih => exact WF_cancel ih heq

end Entity

namespace Entity

/-! ### Shared concrete objects for witnesses -/

/-- Fallback order used with `List.getD`. -/
def dummyOrder : Order := { id := 0, orderPlacement := "", size := 0, timestamp := 0 }

/-- Fallback match used with `List.getD`. -/
def dummyMatch : Match := { askId := 0, bidId := 0, sizeFilled := 0, price := 0 }

/-- A resting ask used by several witnesses. -/
def wOrder : Order := { id := 1, orderPlacement := ASK_ORDER, size := 100, timestamp := 1 }

/-- The one-limit ask book holding `wOrder`. -/
def wLimit : Limit := { price := 10000, orders := [wOrder], totalVolume := 100 }

/-- A small book holding a single resting ask of size 100 at price 10000. -/
def wBook : OrderBook :=
  { market := "ETH", asks := [wLimit], bids := [], askLimits := [10000],
    bidLimits := [], orderIndex := [1] }

theorem wBook_placement :
    (NewOrderBook "ETH").PlaceLimitOrder 10000 wOrder = Except.ok wBook := by
  norm_num [OrderBook.PlaceLimitOrder, NewOrderBook, NewLimit, Limit.AddOrder,
    indexInsert, updateLimitAtPrice, wOrder, wBook, wLimit, ASK_ORDER, BID_ORDER,
    show ¬ ("ASK" : String) = "BID" by decide]

theorem wBook_reachable : Reachable wBook :=
  Reachable.placeLimit (Reachable.init "ETH") wBook_placement

/-- The opposing side's total volume, as selected by `PlaceMarketOrder`'s
branch on the incoming order's placement tag. -/
def OrderBook.oppositeTotalVolume (ob : OrderBook) (order : Order) : ℚ :=
  if order.orderPlacement = BID_ORDER then ob.AskTotalVolume else ob.BidTotalVolume

/-- C1: for every order book state and every market order whose size strictly
exceeds the opposing side's total volume, `PlaceMarketOrder` rejects with the
insufficient-liquidity error.  The rejection is the branch taken before any
limit is touched; in this state-passing embedding the `.error` result carries
no successor state at all, so the caller's book, both sides' limits, all
volumes, and the identity index are exactly the pre-call values, and no
`Match` is produced. -/
theorem placeMarketOrder_insufficient (ob : OrderBook) (order : Order)
    (h : ob.oppositeTotalVolume order < order.size) :
    ob.PlaceMarketOrder order =
      Except.error
        (if order.orderPlacement = BID_ORDER then errNotEnoughAskVolume
         else errNotEnoughBidVolume) := by
  unfold OrderBook.PlaceMarketOrder
  unfold OrderBook.oppositeTotalVolume at h
  by_cases hb : order.orderPlacement = BID_ORDER
  · rw [if_pos hb] at h
    rw [if_pos hb, if_pos hb, if_pos h]
  · rw [if_neg hb] at h
    rw [if_neg hb, if_neg hb, if_pos h]

/-- Book with 200 total ask volume, for the C1 witness. -/
def c1Book : OrderBook :=
  { market := "ETH",
    asks := [{ price := 10000,
               orders := [{ id := 1, orderPlacement := ASK_ORDER, size := 100, timestamp := 1 }],
               totalVolume := 100 },
             { price := 12000,
               orders := [{ id := 2, orderPlacement := ASK_ORDER, size := 100, timestamp := 2 }],
               totalVolume := 100 }],
    bids := [], askLimits := [10000, 12000], bidLimits := [], orderIndex := [1, 2] }

/-- Market bid for 500 against 200 of ask volume. -/
def c1Order : Order := { id := 3, orderPlacement := BID_ORDER, size := 500, timestamp := 3 }

/-- C1 witness: the rejection fires on a concrete book (asks 100@10000 and
100@12000) for a market bid of 500. -/
theorem placeMarketOrder_insufficient_witness :
    c1Book.PlaceMarketOrder c1Order = Except.error errNotEnoughAskVolume := by
  have h := placeMarketOrder_insufficient c1Book c1Order (by
    norm_num [OrderBook.oppositeTotalVolume, OrderBook.AskTotalVolume, c1Book,
      c1Order, BID_ORDER])
  simpa [c1Order, BID_ORDER] using h

/-- C4: in every reachable book state (any sequence of successful public
operations from a new book), every limit on either side has its cached
`totalVolume` equal to the sum of its resting orders' residual sizes. -/
theorem limit_totalVolume_eq_sumSizes_of_reachable (ob : OrderBook)
    (h : Reachable ob) (l : Limit) (hl : l ∈ ob.asks ∨ l ∈ ob.bids) :
    l.totalVolume = sumSizes l.orders := by
  rcases hl with hl | hl
  · exact (wf_of_reachable h).1.2.2 l hl
  · exact (wf_of_reachable h).2.2.2 l hl

/-- C4 witness: the invariant instantiated on the concrete reachable book
`wBook` and its single ask limit. -/
theorem limit_totalVolume_eq_sumSizes_witness :
    wLimit.totalVolume = sumSizes wLimit.orders :=
  limit_totalVolume_eq_sumSizes_of_reachable wBook wBook_reachable wLimit
    (Or.inl (by simp [wBook]))

/-- C8: in every reachable book state, no two limits on the same side share a
price, and each side's price map holds exactly the prices of the limits in
that side's collection. -/
theorem price_uniqueness_of_reachable (ob : OrderBook) (h : Reachable ob) :
    (ob.asks.map Limit.price).Nodup ∧ (ob.bids.map Limit.price).Nodup ∧
    (∀ p : ℚ, p ∈ ob.askLimits ↔ p ∈ ob.asks.map Limit.price) ∧
    (∀ p : ℚ, p ∈ ob.bidLimits ↔ p ∈ ob.bids.map Limit.price) := by
  obtain ⟨⟨h1, h2, _⟩, ⟨h3, h4, _⟩⟩ := wf_of_reachable h
  exact ⟨h1, h3, h2, h4⟩

/-- C8 witness: the price-map correspondence instantiated on the concrete
reachable book `wBook` at price 10000. -/
theorem price_uniqueness_witness :
    (10000 : ℚ) ∈ wBook.askLimits ↔ (10000 : ℚ) ∈ wBook.asks.map Limit.price :=
  (price_uniqueness_of_reachable wBook wBook_reachable).2.2.1 10000

theorem cancelScan_none_of_absent (ls : List Limit) (oid : Int)
    (h : ∀ l ∈ ls, ∀ o ∈ l.orders, o.id ≠ oid) : cancelScan ls oid = none := by
  induction ls with
  | nil => rfl
  | cons l rest ih =>
    have hfind : l.orders.find? (fun o => decide (o.id = oid)) = none := by
      rw [List.find?_eq_none]
      intro o ho
      simpa using h l (by simp) o ho
    rw [cancelScan, hfind, ih (fun l' hl' o ho => h l' (by simp [hl']) o ho)]
    rfl

/-- C7: for every book state, order id, and declared side such that no limit
on the code-selected side (`BID` selects the bid side, anything else the ask
side) holds an order with that id, `CancelOrderByID` returns the not-found
error.  The scan performs no mutation before returning: in this embedding the
`.error` result carries no successor state, so both sides, every limit, and
the identity index are exactly the pre-call values. -/
theorem cancelOrderById_not_found (ob : OrderBook) (orderId : Int)
    (placement : String)
    (h : ∀ l ∈ (if placement = BID_ORDER then ob.bids else ob.asks),
        ∀ o ∈ l.orders, o.id ≠ orderId) :
    ob.CancelOrderByID orderId placement = Except.error errNotFound := by
  unfold OrderBook.CancelOrderByID
  by_cases hb : placement = BID_ORDER
  · rw [if_pos hb, cancelScan_none_of_absent ob.bids orderId
      (by simpa [hb] using h)]
  · rw [if_neg hb, cancelScan_none_of_absent ob.asks orderId
      (by simpa [hb] using h)]

/-- C7 witness: cancelling the absent id 99 on the ask side of `wBook`. -/
theorem cancelOrderById_not_found_witness :
    wBook.CancelOrderByID 99 ASK_ORDER = Except.error errNotFound := by
  apply cancelOrderById_not_found wBook 99 ASK_ORDER
  intro l hl o ho
  rw [if_neg (by decide : ¬ ASK_ORDER = BID_ORDER)] at hl
  simp only [wBook, wLimit] at hl
  rcases List.mem_singleton.mp hl with rfl
  rcases List.mem_singleton.mp ho with rfl
  decide

/-- C9: `PlaceLimitOrder` with a recognized side never touches the opposing
side and never matches: the opposing side's limit collection, price map and
total volume are unchanged, even when the placed price crosses the opposing
side (no crossing check exists in the code).  The embedding's return type
carries no `Match` list because the Go function produces none. -/
theorem placeLimitOrder_opposite_frame (ob : OrderBook) (price : ℚ)
    (order : Order)
    (h : order.orderPlacement = BID_ORDER ∨ order.orderPlacement = ASK_ORDER) :
    ∃ ob', ob.PlaceLimitOrder price order = Except.ok ob' ∧
      (if order.orderPlacement = BID_ORDER then
        ob'.asks = ob.asks ∧ ob'.askLimits = ob.askLimits ∧
          ob'.AskTotalVolume = ob.AskTotalVolume
       else
        ob'.bids = ob.bids ∧ ob'.bidLimits = ob.bidLimits ∧
          ob'.BidTotalVolume = ob.BidTotalVolume) := by
  unfold OrderBook.PlaceLimitOrder
  rcases h with hb | ha
  · by_cases hm : price ∈ ob.bidLimits
    · rw [if_pos hb, if_pos hm]
      exact ⟨_, rfl, by rw [if_pos hb]; exact ⟨rfl, rfl, rfl⟩⟩
    · rw [if_pos hb, if_neg hm]
      exact ⟨_, rfl, by rw [if_pos hb]; exact ⟨rfl, rfl, rfl⟩⟩
  · have hb : ¬ order.orderPlacement = BID_ORDER := by
      rw [ha]; decide
    by_cases hm : price ∈ ob.askLimits
    · rw [if_neg hb, if_pos ha, if_pos hm]
      exact ⟨_, rfl, by rw [if_neg hb]; exact ⟨rfl, rfl, rfl⟩⟩
    · rw [if_neg hb, if_pos ha, if_neg hm]
      exact ⟨_, rfl, by rw [if_neg hb]; exact ⟨rfl, rfl, rfl⟩⟩

/-- Crossing bid: priced strictly above `wBook`'s best (only) ask. -/
def c9Order : Order := { id := 7, orderPlacement := BID_ORDER, size := 5, timestamp := 7 }

/-- C9 witness: placing a bid at 15000 into `wBook`, whose best ask is 10000
(a crossing limit order), leaves the ask side untouched. -/
theorem placeLimitOrder_opposite_frame_witness :
    ∃ ob', wBook.PlaceLimitOrder 15000 c9Order = Except.ok ob' ∧
      (if c9Order.orderPlacement = BID_ORDER then
        ob'.asks = wBook.asks ∧ ob'.askLimits = wBook.askLimits ∧
          ob'.AskTotalVolume = wBook.AskTotalVolume
       else
        ob'.bids = wBook.bids ∧ ob'.bidLimits = wBook.bidLimits ∧
          ob'.BidTotalVolume = wBook.BidTotalVolume) :=
  placeLimitOrder_opposite_frame wBook 15000 c9Order (Or.inl rfl)

end Entity

namespace Entity

/-! ### Scenario A (claim C2) and the stale-index run (claim C3) -/

/-- Scenario A resting ask, 100 at 10000, first to arrive. -/
def aO1 : Order := { id := 1, orderPlacement := ASK_ORDER, size := 100, timestamp := 1 }

/-- Scenario A resting ask, 350 at 12000. -/
def aO2 : Order := { id := 2, orderPlacement := ASK_ORDER, size := 350, timestamp := 2 }

/-- Scenario A resting ask, 15 at 13000. -/
def aO3 : Order := { id := 3, orderPlacement := ASK_ORDER, size := 15, timestamp := 3 }

/-- Scenario A resting ask, 51 at 12000, merging into the 12000 level. -/
def aO4 : Order := { id := 4, orderPlacement := ASK_ORDER, size := 51, timestamp := 4 }

/-- Scenario A incoming market bid of 500. -/
def aMkt : Order := { id := 5, orderPlacement := BID_ORDER, size := 500, timestamp := 5 }

/-- Scenario A, run from an empty book: the four limit placements followed by
the market bid. -/
def aRun : Except String (OrderBook × Order × List Match) :=
  (NewOrderBook "ETH").PlaceLimitOrder 10000 aO1 >>= fun b =>
  b.PlaceLimitOrder 12000 aO2 >>= fun b =>
  b.PlaceLimitOrder 13000 aO3 >>= fun b =>
  b.PlaceLimitOrder 12000 aO4 >>= fun b =>
  b.PlaceMarketOrder aMkt

/-- The book Scenario A leaves behind: ask limits 12000 (volume 1, the
residual of the 51-size order) and 13000 (volume 15). -/
def aBookAfter : OrderBook :=
  { market := "ETH",
    asks := [{ price := 12000,
               orders := [{ id := 4, orderPlacement := ASK_ORDER, size := 1, timestamp := 4 }],
               totalVolume := 1 },
             { price := 13000,
               orders := [{ id := 3, orderPlacement := ASK_ORDER, size := 15, timestamp := 3 }],
               totalVolume := 15 }],
    bids := [], askLimits := [12000, 13000], bidLimits := [], orderIndex := [1, 2, 3, 4] }

/-- The three matches Scenario A produces. -/
def aMatches : List Match :=
  [{ askId := 1, bidId := 5, sizeFilled := 100, price := 10000 },
   { askId := 2, bidId := 5, sizeFilled := 350, price := 12000 },
   { askId := 4, bidId := 5, sizeFilled := 50, price := 12000 }]

theorem aRun_eq :
    aRun = Except.ok
      (aBookAfter, { id := 5, orderPlacement := BID_ORDER, size := 0, timestamp := 5 },
       aMatches) := by
  norm_num [aRun, aO1, aO2, aO3, aO4, aMkt, aBookAfter, aMatches,
    NewOrderBook, OrderBook.PlaceLimitOrder, OrderBook.PlaceMarketOrder,
    OrderBook.AskTotalVolume, OrderBook.Asks, updateLimitAtPrice, indexInsert,
    NewLimit, Limit.AddOrder, marketWalk, Limit.Fill, Limit.fillWalk,
    Limit.fillOrder, Order.IsFilled, Limit.DeleteOrder, sliceSwapRemove,
    tsLe, askLe, BID_ORDER, ASK_ORDER, List.insertionSort, List.orderedInsert,
    Except.bind, bind, show ¬ ("ASK" : String) = "BID" by decide]

/-- C2 counterexample: at the claim's exact input the third match carries
`sizeFilled = 50` (the remainder of the 500 incoming after 100 and 350), not
1: the residual of the 51-size order is 1, but the quantity *filled* from it
is 50. -/
theorem scenarioA_third_match_fills_fifty :
    aRun = Except.ok
      (aBookAfter, { id := 5, orderPlacement := BID_ORDER, size := 0, timestamp := 5 },
       aMatches) ∧
    (aMatches.getD 2 dummyMatch).sizeFilled = 50 ∧
    ¬ (aMatches.getD 2 dummyMatch).sizeFilled = 1 := by
  refine ⟨aRun_eq, by norm_num [aMatches], by norm_num [aMatches]⟩

/-- C2 (amended): Scenario A yields exactly the three matches
(100 at 10000 from order 1, 350 at 12000 from order 2, 50 at 12000 from the
51-size order 4), leaves the 51-size order with residual 1, total ask volume
16, and exactly the two ask limits 12000 (volume 1) and 13000 (volume 15). -/
theorem scenarioA_amended :
    aRun = Except.ok
      (aBookAfter, { id := 5, orderPlacement := BID_ORDER, size := 0, timestamp := 5 },
       aMatches) ∧
    aMatches.length = 3 ∧
    aBookAfter.AskTotalVolume = 16 ∧
    aBookAfter.asks.length = 2 ∧
    ((aBookAfter.asks.map Limit.price = [12000, 13000]) ∧
      (aBookAfter.asks.map Limit.totalVolume = [1, 15])) ∧
    (((aBookAfter.asks.getD 0 (NewLimit 0)).orders.getD 0 dummyOrder).id = 4 ∧
      ((aBookAfter.asks.getD 0 (NewLimit 0)).orders.getD 0 dummyOrder).size = 1) := by
  refine ⟨aRun_eq, rfl, by norm_num [aBookAfter, OrderBook.AskTotalVolume], rfl,
    ⟨rfl, rfl⟩, rfl, by norm_num [aBookAfter, dummyOrder, NewLimit]⟩

/-- The C3 run: place one ask (id 1, 100 at 10000), then fully fill it with
a market bid of 100. -/
def c3Run : Except String (OrderBook × Order × List Match) :=
  (NewOrderBook "ETH").PlaceLimitOrder 10000
      { id := 1, orderPlacement := ASK_ORDER, size := 100, timestamp := 1 } >>= fun b =>
  b.PlaceMarketOrder { id := 2, orderPlacement := BID_ORDER, size := 100, timestamp := 2 }

/-- What the C3 run leaves: an empty book whose identity index still holds
id 1. -/
def c3BookAfter : OrderBook :=
  { market := "ETH", asks := [], bids := [], askLimits := [], bidLimits := [],
    orderIndex := [1] }

/-- C3: `Limit.Fill`/`PlaceMarketOrder` never remove a fully-filled resting
order's id from the identity index (only `CancelOrderByID` deletes index
entries), so after a market order drains the book the index still resolves
id 1 while no order with id 1 rests on either side — the index invariant the
spec states is violated by the code. -/
theorem orderIndex_stale_after_full_fill :
    c3Run = Except.ok
      (c3BookAfter, { id := 2, orderPlacement := BID_ORDER, size := 0, timestamp := 2 },
       [{ askId := 1, bidId := 2, sizeFilled := 100, price := 10000 }]) ∧
    c3BookAfter.asks = [] ∧ c3BookAfter.bids = [] ∧
    (1 : Int) ∈ c3BookAfter.orderIndex := by
  refine ⟨?_, rfl, rfl, by decide⟩
  norm_num [c3Run, c3BookAfter,
    NewOrderBook, OrderBook.PlaceLimitOrder, OrderBook.PlaceMarketOrder,
    OrderBook.AskTotalVolume, OrderBook.Asks, updateLimitAtPrice, indexInsert,
    NewLimit, Limit.AddOrder, marketWalk, Limit.Fill, Limit.fillWalk,
    Limit.fillOrder, Order.IsFilled, Limit.DeleteOrder, sliceSwapRemove,
    tsLe, askLe, BID_ORDER, ASK_ORDER, List.insertionSort, List.orderedInsert,
    Except.bind, bind, show ¬ ("ASK" : String) = "BID" by decide]

end Entity

namespace Entity

/-! ### Claim C6: `DeleteOrder` on an absent order -/

/-- A limit holding one ask of size 5. -/
def c6Limit : Limit :=
  { price := 10000,
    orders := [{ id := 1, orderPlacement := ASK_ORDER, size := 5, timestamp := 1 }],
    totalVolume := 5 }

/-- An order of size 3 that is not resting in `c6Limit`. -/
def c6Absent : Order := { id := 2, orderPlacement := ASK_ORDER, size := 3, timestamp := 2 }

/-- C6 counterexample: deleting an absent order is not a no-op — the order
sequence is untouched but `TotalVolume` still drops by the absent order's
size (5 becomes 2 here), because the Go code subtracts `o.Size` after the
removal loop regardless of whether anything was removed. -/
theorem deleteOrder_absent_not_noop :
    ¬ c6Absent ∈ c6Limit.orders ∧
    (c6Limit.DeleteOrder c6Absent).totalVolume = 2 ∧
    ¬ (c6Limit.DeleteOrder c6Absent).totalVolume = c6Limit.totalVolume := by
  refine ⟨by decide, ?_, ?_⟩
  · norm_num [Limit.DeleteOrder, c6Limit, c6Absent]
  · norm_num [Limit.DeleteOrder, c6Limit, c6Absent]

/-- C6 (amended): for every limit `L` and every order `o` not present in
`L`'s order sequence, `DeleteOrder` leaves the sequence itself unchanged
apart from re-sorting it by timestamp (so exactly unchanged whenever it was
already sorted, as maintained by the code), but decrements `totalVolume` by
`o`'s size; it is therefore a no-op only when `o.size = 0`. -/
theorem deleteOrder_absent_behavior (l : Limit) (o : Order)
    (h : ¬ o ∈ l.orders) :
    (l.DeleteOrder o).totalVolume = l.totalVolume - o.size ∧
    (l.DeleteOrder o).orders = List.insertionSort tsLe l.orders ∧
    (l.orders.Sorted tsLe → (l.DeleteOrder o).orders = l.orders) := by
  have hs : sliceSwapRemove l.orders o = l.orders := sliceSwapRemove_not_mem l.orders o h
  refine ⟨rfl, ?_, ?_⟩
  · simp only [Limit.DeleteOrder, hs]
  · intro hsort
    simp only [Limit.DeleteOrder, hs, hsort.insertionSort_eq]

/-- C6 witness for the amended claim, at the concrete limit and absent
order of the counterexample. -/
theorem deleteOrder_absent_behavior_witness :
    (c6Limit.DeleteOrder c6Absent).totalVolume = c6Limit.totalVolume - c6Absent.size ∧
    (c6Limit.DeleteOrder c6Absent).orders = c6Limit.orders := by
  have h := deleteOrder_absent_behavior c6Limit c6Absent (by decide)
  exact ⟨h.1, h.2.2 (by simp [c6Limit, List.Sorted])⟩

end Entity

namespace Entity

/-! ### Claim C5: FIFO within a price level -/

theorem getD_eq_get_of_lt {α : Type} (l : List α) (d : α) {n : Nat}
    (h : n < l.length) : l.getD n d = l.get ⟨n, h⟩ := by
  simp [List.getD_eq_getElem?_getD, List.getElem?_eq_getElem h, List.get_eq_getElem]

theorem restingId_congr (m : Match) {a b : Order}
    (h : a.orderPlacement = b.orderPlacement) : m.restingId a = m.restingId b := by
  unfold Match.restingId
  rw [h]

theorem fillOrder_incoming_placement (l : Limit) (m o : Order) :
    (l.fillOrder m o).2.1.orderPlacement = o.orderPlacement := by
  rw [fillOrder_incoming]

theorem fillWalk_fifo (l : Limit) (os : List Order) (o : Order) (i j : Nat)
    (hij : i < j) (hj : j < os.length)
    (htouch : ((l.fillWalk os o).orders.getD j dummyOrder).size ≠
      (os.getD j dummyOrder).size) :
    ((l.fillWalk os o).orders.getD i dummyOrder).size = 0 := by
  induction os generalizing o i j with
  | nil => simp at hj
  | cons m rest ih =>
    rw [Limit.fillWalk] at htouch ⊢
    by_cases hfin : (l.fillOrder m o).2.1.IsFilled
    · rw [if_pos hfin] at htouch
      obtain ⟨jj, rfl⟩ : ∃ jj, j = jj + 1 := ⟨j - 1, by omega⟩
      simp only [List.getD_cons_succ] at htouch
      exact absurd rfl htouch
    · rw [if_neg hfin] at htouch ⊢
      obtain ⟨jj, rfl⟩ : ∃ jj, j = jj + 1 := ⟨j - 1, by omega⟩
      simp only [List.getD_cons_succ] at htouch
      cases i with
      | zero =>
        simp only [List.getD_cons_zero, fillOrder_matching]
        rcases min_choice m.size o.size with hmin | hmin
        · rw [hmin]
          ring
        · exfalso
          apply hfin
          simp only [Order.IsFilled, fillOrder_incoming, hmin]
          ring
      | succ ii =>
        simp only [List.getD_cons_succ]
        exact ih _ ii jj (by omega)
          (by simp only [List.length_cons] at hj; omega) htouch

theorem fillWalk_match_restingId (l : Limit) (os : List Order) (o : Order)
    (k : Nat) (hk : k < (l.fillWalk os o).matchList.length) :
    ((l.fillWalk os o).matchList.getD k dummyMatch).restingId o =
      (os.getD k dummyOrder).id := by
  induction os generalizing o k with
  | nil => simp [Limit.fillWalk] at hk
  | cons m rest ih =>
    rw [Limit.fillWalk] at hk ⊢
    by_cases hfin : (l.fillOrder m o).2.1.IsFilled
    · rw [if_pos hfin] at hk ⊢
      have hk0 : k = 0 := Nat.lt_one_iff.mp (by simpa using hk)
      subst hk0
      simp only [List.getD_cons_zero]
      exact fillOrder_restingId l m o
    · rw [if_neg hfin] at hk ⊢
      cases k with
      | zero =>
        simp only [List.getD_cons_zero]
        exact fillOrder_restingId l m o
      | succ kk =>
        simp only [List.getD_cons_succ]
        have hplace : o.orderPlacement = (l.fillOrder m o).2.1.orderPlacement :=
          (fillOrder_incoming_placement l m o).symm
        rw [restingId_congr _ hplace]
        exact ih _ kk (by simpa using hk)

/-- C5: within one limit whose resting queue is in strict arrival
(timestamp) order, an incoming order can only have reduced a later-arrived
order `B`'s residual if every earlier-arrived order `A` was reduced to
residual zero, and the matches `Fill` returns are emitted in queue (arrival)
order: the `k`-th match records the `k`-th resting order of the queue. -/
theorem fill_fifo_within_limit (l : Limit) (inc A B : Order) (i j : Nat)
    (hi : i < l.orders.length) (hj : j < l.orders.length)
    (hA : l.orders.getD i dummyOrder = A) (hB : l.orders.getD j dummyOrder = B)
    (hsorted : l.orders.Pairwise (fun a b => a.timestamp < b.timestamp))
    (hts : A.timestamp < B.timestamp) :
    (((l.fillWalk l.orders inc).orders.getD j dummyOrder).size ≠ B.size →
      ((l.fillWalk l.orders inc).orders.getD i dummyOrder).size = 0) ∧
    (∀ k, k < (l.Fill inc).2.2.length →
      ((l.Fill inc).2.2.getD k dummyMatch).restingId inc =
        (l.orders.getD k dummyOrder).id) := by
  have hij : i < j := by
    rcases Nat.lt_trichotomy i j with h | h | h
    · exact h
    · exfalso
      subst h
      rw [hA] at hB
      rw [hB] at hts
      exact absurd hts (lt_irrefl _)
    · exfalso
      have hp := List.pairwise_iff_get.mp hsorted ⟨j, hj⟩ ⟨i, hi⟩ h
      rw [← getD_eq_get_of_lt l.orders dummyOrder hj,
        ← getD_eq_get_of_lt l.orders dummyOrder hi, hA, hB] at hp
      exact absurd hts (not_lt.mpr (le_of_lt hp))
  constructor
  · intro htouch
    rw [← hB] at htouch
    exact fillWalk_fifo l l.orders inc i j hij hj htouch
  · intro k hk
    rw [Fill_matchList] at hk ⊢
    exact fillWalk_match_restingId l l.orders inc k hk

/-- First-arrived resting ask of the C5 witness. -/
def c5A : Order := { id := 1, orderPlacement := ASK_ORDER, size := 5, timestamp := 1 }

/-- Second-arrived resting ask of the C5 witness. -/
def c5B : Order := { id := 2, orderPlacement := ASK_ORDER, size := 5, timestamp := 2 }

/-- A limit with the two resting asks `c5A` then `c5B`. -/
def c5Limit : Limit := { price := 100, orders := [c5A, c5B], totalVolume := 10 }

/-- Incoming market bid of 7 that fills `c5A` wholly and `c5B` partly. -/
def c5Inc : Order := { id := 3, orderPlacement := BID_ORDER, size := 7, timestamp := 3 }

/-- C5 witness: in the concrete two-order limit, the partially filling bid
of 7 leaves `c5B` touched (residual 3), and the theorem yields that `c5A`'s
residual is zero. -/
theorem fill_fifo_within_limit_witness :
    ((c5Limit.fillWalk c5Limit.orders c5Inc).orders.getD 0 dummyOrder).size = 0 :=
  (fill_fifo_within_limit c5Limit c5Inc c5A c5B 0 1 (by decide) (by decide)
      rfl rfl (by decide) (by decide)).1
    (by norm_num [c5Limit, c5A, c5B, c5Inc, Limit.fillWalk, Limit.fillOrder,
      Order.IsFilled, dummyOrder, BID_ORDER, ASK_ORDER])

end Entity

namespace Entity

/-! ### Claim C10: a market order for exactly the available volume -/

theorem fillWalk_full (l : Limit) (os : List Order) (o : Order)
    (hnn : ∀ m ∈ os, 0 ≤ m.size) (h : sumSizes os ≤ o.size) :
    (l.fillWalk os o).volDec = sumSizes os := by
  induction os generalizing o with
  | nil => simp [Limit.fillWalk, sumSizes_nil]
  | cons m rest ih =>
    have hm : 0 ≤ m.size := hnn m (by simp)
    have hrest : ∀ x ∈ rest, 0 ≤ x.size := fun x hx => hnn x (by simp [hx])
    have hrestsum : 0 ≤ sumSizes rest := sumSizes_nonneg hrest
    have hsum := sumSizes_cons m rest
    have hms : m.size ≤ o.size := by
      rw [hsum] at h
      linarith
    have hmin : min m.size o.size = m.size := min_eq_left hms
    rw [Limit.fillWalk]
    by_cases hfin : (l.fillOrder m o).2.1.IsFilled
    · rw [if_pos hfin]
      have hofill : o.size - m.size = 0 := by
        have h0 : (l.fillOrder m o).2.1.size = 0 := hfin
        rw [fillOrder_incoming] at h0
        simp only [hmin] at h0
        exact h0
      have hr0 : sumSizes rest = 0 := by
        rw [hsum] at h
        linarith
      simp only [fillOrder_sizeFilled, hmin, hsum, hr0]
      ring
    · rw [if_neg hfin]
      have hszrec : sumSizes rest ≤ ((l.fillOrder m o).2.1).size := by
        rw [fillOrder_incoming]
        simp only [hmin]
        rw [hsum] at h
        linarith
      have hrec := ih (l.fillOrder m o).2.1 hrest hszrec
      simp only [fillOrder_sizeFilled, hmin, hrec, hsum]

theorem marketWalk_exact (ls : List Limit) (o : Order)
    (hinv : ∀ l ∈ ls, l.totalVolume = sumSizes l.orders)
    (hpos : ∀ l ∈ ls, 0 < l.totalVolume)
    (hnn : ∀ l ∈ ls, ∀ m ∈ l.orders, 0 ≤ m.size)
    (hsz : o.size = (ls.map Limit.totalVolume).sum) :
    (marketWalk ls o).limits = [] ∧ (marketWalk ls o).incoming.size = 0 := by
  induction ls generalizing o with
  | nil =>
    refine ⟨rfl, ?_⟩
    simpa using hsz
  | cons l rest ih =>
    have hinv_l := hinv l (by simp)
    have hnn_l := hnn l (by simp)
    have hrestnn : 0 ≤ (rest.map Limit.totalVolume).sum :=
      List.sum_nonneg (by
        intro x hx
        rcases List.mem_map.mp hx with ⟨lx, hlx, rfl⟩
        exact le_of_lt (hpos lx (by simp [hlx])))
    have hfull_le : sumSizes l.orders ≤ o.size := by
      rw [hsz, List.map_cons, List.sum_cons, ← hinv_l]
      linarith
    have hvol : (l.fillWalk l.orders o).volDec = sumSizes l.orders :=
      fillWalk_full l l.orders o hnn_l hfull_le
    have htv0 : (l.Fill o).1.totalVolume = 0 := by
      rw [Fill_totalVolume, hvol, hinv_l]
      ring
    have hincsz : (l.Fill o).2.1.size = o.size - sumSizes l.orders := by
      rw [Fill_incoming_size, hvol]
    rw [marketWalk]
    rw [if_pos htv0]
    by_cases hfin : (l.Fill o).2.1.IsFilled
    · rw [if_pos hfin]
      have h0 : (l.Fill o).2.1.size = 0 := hfin
      have ho : o.size = sumSizes l.orders := by
        rw [hincsz] at h0
        linarith
      have hrest0 : (rest.map Limit.totalVolume).sum = 0 := by
        rw [hsz, List.map_cons, List.sum_cons, ← hinv_l] at ho
        linarith
      refine ⟨?_, h0⟩
      cases rest with
      | nil => rfl
      | cons x xs =>
        exfalso
        have hx := hpos x (by simp)
        have hxs : 0 ≤ (xs.map Limit.totalVolume).sum :=
          List.sum_nonneg (by
            intro y hy
            rcases List.mem_map.mp hy with ⟨ly, hly, rfl⟩
            exact le_of_lt (hpos ly (by simp [hly])))
        rw [List.map_cons, List.sum_cons] at hrest0
        linarith
    · rw [if_neg hfin]
      have hrec := ih (l.Fill o).2.1
        (fun x hx => hinv x (by simp [hx]))
        (fun x hx => hpos x (by simp [hx]))
        (fun x hx => hnn x (by simp [hx]))
        (by
          rw [hincsz, hsz, List.map_cons, List.sum_cons, ← hinv_l]
          ring)
      exact ⟨hrec.1, hrec.2⟩

/-- C10: a market order whose size equals the opposing side's total volume
passes the strict `>` admission check (it is accepted, not rejected), and
after the call the opposing side holds zero limits, its total volume is
zero, and the incoming order's residual size is zero.  Hypotheses are the
spec's data-model invariants for the opposing side: cached volumes equal
order-size sums, no addressable zero-volume limit, and non-negative
residual sizes. -/
theorem placeMarketOrder_exact_volume (ob : OrderBook) (order : Order)
    (hinv : ∀ l ∈ (if order.orderPlacement = BID_ORDER then ob.asks else ob.bids),
      l.totalVolume = sumSizes l.orders)
    (hpos : ∀ l ∈ (if order.orderPlacement = BID_ORDER then ob.asks else ob.bids),
      0 < l.totalVolume)
    (hnn : ∀ l ∈ (if order.orderPlacement = BID_ORDER then ob.asks else ob.bids),
      ∀ m ∈ l.orders, 0 ≤ m.size)
    (hsz : order.size = ob.oppositeTotalVolume order) :
    ∃ ob' order' ms, ob.PlaceMarketOrder order = Except.ok (ob', order', ms) ∧
      (if order.orderPlacement = BID_ORDER then ob'.asks else ob'.bids) = [] ∧
      ob'.oppositeTotalVolume order = 0 ∧
      order'.size = 0 := by
  by_cases hb : order.orderPlacement = BID_ORDER
  · rw [if_pos hb] at hinv hpos hnn
    rw [OrderBook.oppositeTotalVolume, if_pos hb] at hsz
    have hperm : (ob.Asks).Perm ob.asks := List.perm_insertionSort askLe ob.asks
    have hsz' : order.size = (ob.Asks.map Limit.totalVolume).sum := by
      rw [hsz, OrderBook.AskTotalVolume]
      exact ((hperm.map Limit.totalVolume).sum_eq).symm
    have hex := marketWalk_exact ob.Asks order
      (fun l hl => hinv l (hperm.subset hl))
      (fun l hl => hpos l (hperm.subset hl))
      (fun l hl => hnn l (hperm.subset hl)) hsz'
    refine ⟨({ ob with
                 asks := (marketWalk ob.Asks order).limits,
                 askLimits := ob.askLimits.filter
                   (fun p => decide (¬ p ∈ (marketWalk ob.Asks order).removedPrices)) } :
        OrderBook),
      (marketWalk ob.Asks order).incoming, (marketWalk ob.Asks order).matchList,
      ?_, ?_, ?_, hex.2⟩
    · unfold OrderBook.PlaceMarketOrder
      rw [if_pos hb, if_neg (by rw [hsz]; exact lt_irrefl _)]
    · rw [if_pos hb]
      exact hex.1
    · simp only [OrderBook.oppositeTotalVolume, OrderBook.AskTotalVolume, if_pos hb]
      rw [hex.1]
      simp
  · rw [if_neg hb] at hinv hpos hnn
    rw [OrderBook.oppositeTotalVolume, if_neg hb] at hsz
    have hperm : (ob.Bids).Perm ob.bids := List.perm_insertionSort bidLe ob.bids
    have hsz' : order.size = (ob.Bids.map Limit.totalVolume).sum := by
      rw [hsz, OrderBook.BidTotalVolume]
      exact ((hperm.map Limit.totalVolume).sum_eq).symm
    have hex := marketWalk_exact ob.Bids order
      (fun l hl => hinv l (hperm.subset hl))
      (fun l hl => hpos l (hperm.subset hl))
      (fun l hl => hnn l (hperm.subset hl)) hsz'
    refine ⟨({ ob with
                 bids := (marketWalk ob.Bids order).limits,
                 bidLimits := ob.bidLimits.filter
                   (fun p => decide (¬ p ∈ (marketWalk ob.Bids order).removedPrices)) } :
        OrderBook),
      (marketWalk ob.Bids order).incoming, (marketWalk ob.Bids order).matchList,
      ?_, ?_, ?_, hex.2⟩
    · unfold OrderBook.PlaceMarketOrder
      rw [if_neg hb, if_neg (by rw [hsz]; exact lt_irrefl _)]
    · rw [if_neg hb]
      exact hex.1
    · simp only [OrderBook.oppositeTotalVolume, OrderBook.BidTotalVolume, if_neg hb]
      rw [hex.1]
      simp

/-- Market bid for exactly `wBook`'s total ask volume of 100. -/
def c10Order : Order := { id := 2, orderPlacement := BID_ORDER, size := 100, timestamp := 2 }

/-- C10 witness: a market bid of exactly 100 against `wBook` (one ask of
100) is accepted and empties the ask side. -/
theorem placeMarketOrder_exact_volume_witness :
    ∃ ob' order' ms, wBook.PlaceMarketOrder c10Order = Except.ok (ob', order', ms) ∧
      (if c10Order.orderPlacement = BID_ORDER then ob'.asks else ob'.bids) = [] ∧
      ob'.oppositeTotalVolume c10Order = 0 ∧
      order'.size = 0 :=
  placeMarketOrder_exact_volume wBook c10Order
    (by
      intro l hl
      rw [if_pos (show c10Order.orderPlacement = BID_ORDER from rfl)] at hl
      simp only [wBook] at hl
      rcases List.mem_singleton.mp hl with rfl
      norm_num [wLimit, wOrder, sumSizes])
    (by
      intro l hl
      rw [if_pos (show c10Order.orderPlacement = BID_ORDER from rfl)] at hl
      simp only [wBook] at hl
      rcases List.mem_singleton.mp hl with rfl
      norm_num [wLimit])
    (by
      intro l hl
      rw [if_pos (show c10Order.orderPlacement = BID_ORDER from rfl)] at hl
      simp only [wBook] at hl
      rcases List.mem_singleton.mp hl with rfl
      intro m hm
      simp only [wLimit] at hm
      rcases List.mem_singleton.mp hm with rfl
      norm_num [wOrder])
    (by norm_num [OrderBook.oppositeTotalVolume, OrderBook.AskTotalVolume,
      wBook, wLimit, c10Order, BID_ORDER])

end Entity
